import Mathlib

/-!
Verification of the evefile position-indexed data model and joining engine.

The development shallowly embeds the relevant parts of
evefile.entities.data (import cleaning, MeasureData.join, AxisData.join,
TimestampData.get_position), evefile.controllers.joining (the four join
policies, the Join engine pipeline, JoinFactory.get_join) and
evefile.controllers.timestamp_mapping (Mapper.map).

Modelling conventions:
- numpy arrays of int64 become List Int; parallel (positions, values)
  arrays that receive identical index selections become List (Int × Int)
  where convenient.
- numpy masked arrays become List (Option Int); none is a masked slot.
- numpy argsort appears in the source with its default kind quicksort,
  which numpy documents as not stable: the relative order of equal
  position counts is unspecified. Where only sortedness matters, the
  sort is modelled as one admissible outcome (an insertion sort); where
  the tie order matters, the predicate sortedRearrangement ranges over
  every admissible outcome.
- numpy searchsorted on a sorted array equals counting elements below
  (side left: strictly below; side right: below or equal), which is how it
  is modelled here.
- numpy digitize on strictly increasing bins equals searchsorted side
  right.
- Python negative indexing (arr[-1]) is modelled explicitly where the code
  relies on it (TimestampData.get_position).
-/

/-- Stable insertion step for pairs ordered by their first component,
modelling one step of a stable sort by position. An element is inserted in
front of the first element whose key is greater than or equal to its own,
so earlier list elements stay in front of equal keys. -/
def insortPair (x : Int × Int) : List (Int × Int) → List (Int × Int)
  | [] => [x]
  | y :: rest => if x.1 ≤ y.1 then x :: y :: rest else y :: insortPair x rest

/-- One admissible outcome of sorting (position, value) pairs by
position, modelling the application of numpy argsort over position_counts
to every data attribute in MeasureData._import_from_hdf5dataimporter.
The source uses the default argsort kind quicksort, which numpy documents
as not stable, so the tie order among equal position counts is not
guaranteed; this function fixes one admissible tie order and is only used
where the tie order is irrelevant; facts sensitive to the tie order are
stated over sortedRearrangement instead. -/
def sortByPos (l : List (Int × Int)) : List (Int × Int) :=
  l.foldr insortPair []

/-- Keep, of each run of consecutive pairs with equal first component, only
the last pair. This is the effect of the numpy idiom
np.where(np.diff([*xs, xs[-1] + 1])) used both in
AxisData._import_from_hdf5dataimporter (duplicate positions) and in
Mapper.map (duplicate monitor timestamps): index i is kept exactly when it
is the final index or xs[i] differs from xs[i+1]. -/
def keepLastRun : List (Int × Int) → List (Int × Int)
  | [] => []
  | [x] => [x]
  | x :: y :: rest =>
      if x.1 = y.1 then keepLastRun (y :: rest)
      else x :: keepLastRun (y :: rest)

/-- Helper for ChannelData duplicate handling: walking the list, drop an
element whose key is less than or equal to the key of the immediately
preceding element of the original list. This is the effect of
np.delete(xs, np.where(((xs[:-1] - xs[1:]) + 1) > 0)[0] + 1): element j
(j greater than 0) is removed exactly when xs[j] is less than or equal to
xs[j-1], where xs is the original (already sorted) array. -/
def dropLeRun (prev : Int) : List (Int × Int) → List (Int × Int)
  | [] => []
  | y :: rest =>
      if y.1 ≤ prev then dropLeRun y.1 rest
      else y :: dropLeRun y.1 rest

/-- Keep, of each run of consecutive pairs with equal first component, only
the first pair (ChannelData._import_from_hdf5dataimporter). -/
def keepFirstRun : List (Int × Int) → List (Int × Int)
  | [] => []
  | x :: rest => x :: dropLeRun x.1 rest

/-- MeasureData._import_from_hdf5dataimporter: sort all data attributes by
position (modelled on (position, value) pairs). This is the whole cleaning
pass for DeviceData and TimestampData. -/
def measureImport (raw : List (Int × Int)) : List (Int × Int) :=
  sortByPos raw

/-- AxisData._import_from_hdf5dataimporter: sort, then keep only the last
entry of each run of duplicate positions. -/
def axisImport (raw : List (Int × Int)) : List (Int × Int) :=
  keepLastRun (sortByPos raw)

/-- ChannelData._import_from_hdf5dataimporter: sort, then keep only the
first entry of each run of duplicate positions. -/
def channelImport (raw : List (Int × Int)) : List (Int × Int) :=
  keepFirstRun (sortByPos raw)

/-- An admissible result of sorting the raw recording by position through
numpy argsort with the default kind quicksort: a rearrangement of the raw
pairs whose positions are non-decreasing. numpy documents this sort kind
as not stable, so every such rearrangement is a possible sorted order and
the relative order of pairs with equal position counts is unspecified. -/
def sortedRearrangement (raw m : List (Int × Int)) : Prop :=
  m.Perm raw ∧ m.Pairwise (fun a b => a.1 ≤ b.1)

/-- numpy searchsorted side left on a sorted array: the number of elements
strictly below the probe. -/
def searchLeft (a : List Int) (v : Int) : Nat :=
  (a.filter (fun x => x < v)).length

/-- numpy searchsorted side right on a sorted array: the number of elements
below or equal to the probe. numpy digitize on strictly increasing bins is
the same function. -/
def searchRight (a : List Int) (v : Int) : Nat :=
  (a.filter (fun x => x ≤ v)).length

/-- Insertion step of an ascending sort of integers. -/
def insortInt (x : Int) : List Int → List Int
  | [] => [x]
  | y :: rest => if x ≤ y then x :: y :: rest else y :: insortInt x rest

/-- Ascending sort of integers. -/
def sortInts (l : List Int) : List Int :=
  l.foldr insortInt []

/-- Remove consecutive duplicates from a sorted integer list. -/
def dedupSorted : List Int → List Int
  | [] => []
  | [x] => [x]
  | x :: y :: rest =>
      if x = y then dedupSorted (y :: rest) else x :: dedupSorted (y :: rest)

/-- np.union1d: sorted, duplicate-free union of two integer arrays. -/
def npUnion1d (a b : List Int) : List Int :=
  dedupSorted (sortInts (a ++ b))

/-- np.intersect1d: sorted, duplicate-free intersection of two integer
arrays. -/
def npIntersect1d (a b : List Int) : List Int :=
  dedupSorted (sortInts (a.filter (fun x => b.contains x)))

/-- np.setdiff1d: sorted, duplicate-free difference of two integer
arrays. -/
def npSetdiff1d (a b : List Int) : List Int :=
  dedupSorted (sortInts (a.filter (fun x => !(b.contains x))))

/-- functools.reduce over a list of index arrays: the single-element list
is returned unchanged, longer lists are folded from the left. Python
functools.reduce raises on an empty list; the theorems below therefore
only use non-empty lists. -/
def reduce1 (f : List Int → List Int → List Int) : List (List Int) → List Int
  | [] => []
  | x :: rest => rest.foldl f x

/-- numpy fancy assignment base[idxs] = values, modelled as a left fold of
single-slot updates, so a repeated index keeps the value assigned last,
matching numpy semantics for repeated indices. -/
def fancySet (base : List (Option Int)) (assigns : List (Nat × Option Int)) :
    List (Option Int) :=
  assigns.foldl (fun acc q => acc.set q.1 q.2) base

/-- MeasureData.join (the channel alignment path): relabel the data to the
provided positions. Shorter position list: gather through searchsorted
side left. Longer position list: start from a fresh zero array
(np.zeros), write the original values at the insertion points of the own
positions, then mask the positions absent from the own index. Equal
length: the data array is left untouched and only the position axis is
replaced. -/
def measureJoin (pc : List Int) (vals : List (Option Int))
    (positions : List Int) : List Int × List (Option Int) :=
  if positions.length < pc.length then
    (positions, positions.map (fun p => vals.getD (searchLeft pc p) none))
  else if pc.length < positions.length then
    let base := List.replicate positions.length (some (0 : Int))
    let withOrig := fancySet base ((pc.map (searchLeft positions)).zip vals)
    let newPositions := npSetdiff1d positions pc
    (positions,
      fancySet withOrig (newPositions.map (fun q => (searchLeft positions q, none))))
  else
    (positions, vals)

/-- AxisData.join with fill and no snapshot: for every requested position,
gather the value at index searchsorted(pc, p, side right) - 1; the code
first gathers (an index of -1 wrapping around to the last element) and
afterwards masks exactly the slots whose index was negative, which at the
Option level is the function below. -/
def axisJoinFill (pc : List Int) (vals : List (Option Int))
    (positions : List Int) : List Int × List (Option Int) :=
  (positions, positions.map (fun p =>
    let i := searchRight pc p
    if i = 0 then none else vals.getD (i - 1) none))

/-- np.insert with an array of indices: every inserted value is placed in
front of the addressed index of the original array, values sharing an
index keep their given order, indices at or past the length append at the
end. -/
def npInsert {α : Type} [Inhabited α] (arr : List α) (ins : List (Nat × α)) :
    List α :=
  (List.range arr.length).foldr
    (fun i acc =>
      ((ins.filter (fun q => q.1 = i)).map Prod.snd) ++ (arr.getD i default :: acc))
    ((ins.filter (fun q => arr.length ≤ q.1)).map Prod.snd)

/-- AxisData.join with a snapshot: splice the snapshot pairs into the own
arrays at their sorted insertion points (np.insert at
searchsorted(pc, snapshot positions)), then carry-forward fill as
without a snapshot. -/
def axisJoinSnapshot (pc : List Int) (vals : List (Option Int))
    (snapPc : List Int) (snapVals : List (Option Int))
    (positions : List Int) : List Int × List (Option Int) :=
  let insertPos := snapPc.map (searchLeft pc)
  let pc2 := npInsert pc (insertPos.zip snapPc)
  let vals2 := npInsert vals (insertPos.zip snapVals)
  axisJoinFill pc2 vals2 positions

/-- Device kind tag distinguishing AxisData from ChannelData instances in
the joining engine. -/
inductive DevKind
  | axis
  | channel
deriving DecidableEq, Repr

/-- One device data object as seen by the joining engine: identifier,
kind, position_counts and (possibly masked) data. -/
structure DeviceSeq where
  id : String
  kind : DevKind
  pc : List Int
  vals : List (Option Int)
deriving DecidableEq, Repr

/-- Mutable state of a Join engine instance: the lists _channel_indices,
_axes and _channels initialised in Join.__init__ and appended to by
Join._sort_data on every call. -/
structure JoinState where
  channelIndices : List Nat
  axes : List DeviceSeq
  channels : List DeviceSeq
deriving DecidableEq, Repr

/-- The state of a freshly constructed Join instance. -/
def initialJoinState : JoinState := ⟨[], [], []⟩

/-- One enumeration step of Join._sort_data: channels are appended to
_channels together with their input index, axes are appended to _axes. -/
def sortDataStep (st : JoinState) (p : Nat × DeviceSeq) : JoinState :=
  match p.2.kind with
  | .channel =>
      { st with
        channels := st.channels ++ [p.2],
        channelIndices := st.channelIndices ++ [p.1] }
  | .axis => { st with axes := st.axes ++ [p.2] }

/-- Join._sort_data: partition the input into axes and channels, appending
to the state carried over from any previous call. -/
def sortData (st : JoinState) (data : List DeviceSeq) : JoinState :=
  data.enum.foldl sortDataStep st

/-- The four implemented join policies. -/
inductive Policy
  | channelPositions
  | axisPositions
  | axisAndChannelPositions
  | axisOrChannelPositions
deriving DecidableEq, Repr

/-- The policy-specific _assign_result_positions implementations:
ChannelPositions reduces np.union1d over the channel position lists,
AxisPositions over the axis position lists, AxisOrChannelPositions over
axes and channels together, and AxisAndChannelPositions reduces
np.intersect1d over the concatenation of all axis and channel position
lists. -/
def assignResultPositions (pol : Policy) (st : JoinState) : List Int :=
  match pol with
  | .channelPositions => reduce1 npUnion1d (st.channels.map DeviceSeq.pc)
  | .axisPositions => reduce1 npUnion1d (st.axes.map DeviceSeq.pc)
  | .axisAndChannelPositions =>
      reduce1 npIntersect1d
        (st.axes.map DeviceSeq.pc ++ st.channels.map DeviceSeq.pc)
  | .axisOrChannelPositions =>
      reduce1 npUnion1d
        (st.axes.map DeviceSeq.pc ++ st.channels.map DeviceSeq.pc)

/-- Join._fill_axes for one axis: with a snapshot registered under the
axis identifier, splice and fill; otherwise fill with carry-forward. -/
def fillAxis (positions : List Int) (snapshots : List (String × DeviceSeq))
    (a : DeviceSeq) : DeviceSeq :=
  match snapshots.lookup a.id with
  | some snap =>
      let r := axisJoinSnapshot a.pc a.vals snap.pc snap.vals positions
      { a with pc := r.1, vals := r.2 }
  | none =>
      let r := axisJoinFill a.pc a.vals positions
      { a with pc := r.1, vals := r.2 }

/-- Join._fill_channels for one channel: MeasureData.join on the common
positions. -/
def fillChannel (positions : List Int) (c : DeviceSeq) : DeviceSeq :=
  let r := measureJoin c.pc c.vals positions
  { c with pc := r.1, vals := r.2 }

/-- Python list.insert: the index is clamped to the list length. -/
def pyInsert {α : Type} (l : List α) (i : Nat) (x : α) : List α :=
  l.take i ++ x :: l.drop i

/-- Join._assign_result: start from the axis list and insert each channel
at its recorded input index. -/
def assembleResult (axes : List DeviceSeq) (channels : List DeviceSeq)
    (channelIndices : List Nat) : List DeviceSeq :=
  (channelIndices.zip channels).foldl (fun acc q => pyInsert acc q.1 q.2) axes

/-- One call of Join._join on an engine with state st: sort the data into
the (accumulated) state, compute the common positions, fill all stored
axes and channels in place, and assemble the result from the stored
channel indices. Returns the result list and the mutated engine state. -/
def joinCall (pol : Policy) (snapshots : List (String × DeviceSeq))
    (st : JoinState) (data : List DeviceSeq) :
    List DeviceSeq × JoinState :=
  let st1 := sortData st data
  let positions := assignResultPositions pol st1
  let axes2 := st1.axes.map (fillAxis positions snapshots)
  let channels2 := st1.channels.map (fillChannel positions)
  (assembleResult axes2 channels2 st1.channelIndices,
    ⟨st1.channelIndices, axes2, channels2⟩)

/-- The common index the specification prescribes for the
AxisAndChannelPositions (NoFill) policy: the intersection of the union of
all Axis position indices with the union of all Channel position
indices. This definition follows the words of the specification and is
compared against assignResultPositions. -/
def specNoFillIndex (axisIndices channelIndices : List (List Int)) : List Int :=
  npIntersect1d (reduce1 npUnion1d axisIndices) (reduce1 npUnion1d channelIndices)

/-- TimestampData.get_position for a single time: negative times are
replaced by the first recorded millisecond value, then
idx = np.digitize(time, data) and position_counts[idx - 1] is returned,
where the Python index -1 arising from idx = 0 wraps around to the last
entry. -/
def getPosition (msL posL : List Int) (t : Int) : Int :=
  let t2 := if t < 0 then msL.getD 0 0 else t
  let idx := searchRight msL t2
  if idx = 0 then posL.getD (posL.length - 1) 0 else posL.getD (idx - 1) 0

/-- Mapper.map on a monitor given the timestamp table (msL, posL): drop
every pair whose timestamp equals the timestamp of the immediately
following pair (np.diff based duplicate collapse), then map each retained
timestamp through TimestampData.get_position. -/
def mapperMap (msL posL : List Int) (monitor : List (Int × Int)) :
    List (Int × Int) :=
  (keepLastRun monitor).map (fun q => (getPosition msL posL q.1, q.2))

/-- The module-level global names of evefile.controllers.joining that
JoinFactory.get_join can reach through globals()[mode]. -/
inductive PyGlobal
  | joinClass
  | channelPositionsClass
  | axisPositionsClass
  | axisAndChannelPositionsClass
  | axisOrChannelPositionsClass
  | joinFactoryClass
  | copyModule
  | loggingModule
  | reduceFunction
  | numpyModule
  | evefilePackage
  | loggerObject
deriving DecidableEq, Repr

/-- The globals() table of evefile.controllers.joining (imports, logger,
and the classes defined in the module). -/
def joiningGlobals : List (String × PyGlobal) :=
  [("copy", PyGlobal.copyModule),
   ("logging", PyGlobal.loggingModule),
   ("reduce", PyGlobal.reduceFunction),
   ("np", PyGlobal.numpyModule),
   ("evefile", PyGlobal.evefilePackage),
   ("logger", PyGlobal.loggerObject),
   ("Join", PyGlobal.joinClass),
   ("ChannelPositions", PyGlobal.channelPositionsClass),
   ("AxisPositions", PyGlobal.axisPositionsClass),
   ("AxisAndChannelPositions", PyGlobal.axisAndChannelPositionsClass),
   ("AxisOrChannelPositions", PyGlobal.axisOrChannelPositionsClass),
   ("JoinFactory", PyGlobal.joinFactoryClass)]

/-- Possible outcomes of JoinFactory.get_join. -/
inductive GetJoinResult
  | joinInstance (p : Policy)
  | baseJoinInstance
  | factoryInstance
  | raisesKeyError
  | raisesTypeError
  | raisesValueError (msg : String)
deriving DecidableEq, Repr

/-- Calling a module global with the keyword argument evefile: the Join
classes and JoinFactory construct an instance, everything else raises
TypeError. -/
def callWithEvefile : PyGlobal → GetJoinResult
  | .joinClass => .baseJoinInstance
  | .channelPositionsClass => .joinInstance .channelPositions
  | .axisPositionsClass => .joinInstance .axisPositions
  | .axisAndChannelPositionsClass => .joinInstance .axisAndChannelPositions
  | .axisOrChannelPositionsClass => .joinInstance .axisOrChannelPositions
  | .joinFactoryClass => .factoryInstance
  | _ => .raisesTypeError

/-- JoinFactory.get_join: globals()[mode](evefile=self.evefile). A name
absent from the module globals raises KeyError. -/
def getJoin (mode : String) : GetJoinResult :=
  match joiningGlobals.lookup mode with
  | none => .raisesKeyError
  | some g => callWithEvefile g

/-- Claim C1 (code_bug evidence): under the AxisAndChannelPositions policy
with two axes recorded at positions [1] and [2] and one channel recorded
at positions [1, 2], the engine computes the empty common index, because
_assign_result_positions reduces np.intersect1d over every individual
position list, while the specified common index — the intersection of the
union of all Axis indices with the union of all Channel indices, as also
stated in the class docstring — is [1, 2]. -/
theorem axisAndChannelPositions_all_intersect_deviates :
    assignResultPositions Policy.axisAndChannelPositions
      (sortData initialJoinState
        [⟨("a1"), DevKind.axis, [1], [some 5]⟩,
         ⟨("a2"), DevKind.axis, [2], [some 6]⟩,
         ⟨("c1"), DevKind.channel, [1, 2], [some 7, some 8]⟩]) = []
    ∧ specNoFillIndex [[1], [2]] [[1, 2]] = [1, 2]
    ∧ ([] : List Int) ≠ [1, 2] := by
  refine ⟨by decide, by decide, by decide⟩

/-- Claim C2 (code_bug evidence): MeasureData.join masks missing positions
only when the common index is longer than the own index. A channel
recorded at positions [0, 2, 3, 4] with values 10, 20, 30, 40 joined to
the longer common index [0, 1, 2, 3, 4] behaves as claimed (exactly the
slot of position 1 is masked); joined to the shorter common index
[0, 1, 2], position 1 — absent from the own index — receives the value 20
recorded at position 2 instead of a mask; joined to the equally long index
[0, 1] with own index [0, 2], position 1 receives the value recorded at
position 2 as well, contradicting the docstring of MeasureData.join. -/
theorem measureJoin_masking_only_when_longer :
    measureJoin [0, 2, 3, 4] [some 10, some 20, some 30, some 40] [0, 1, 2, 3, 4]
      = ([0, 1, 2, 3, 4], [some 10, none, some 20, some 30, some 40])
    ∧ measureJoin [0, 2, 3, 4] [some 10, some 20, some 30, some 40] [0, 1, 2]
      = ([0, 1, 2], [some 10, some 20, some 20])
    ∧ measureJoin [0, 2] [some 10, some 20] [0, 1]
      = ([0, 1], [some 10, some 20]) := by
  refine ⟨by decide, by decide, by decide⟩

/-- Claim C5 (code_bug evidence): the join engine is not idempotent across
calls on the same instance. Joining the two-element device list
[axis at positions [1, 2], channel at positions [1, 2]] on a fresh
ChannelPositions engine yields a two-element result, but repeating the
identical call on the same engine yields a four-element result, because
_sort_data appends to the _axes, _channels and _channel_indices lists kept
from the first call. -/
theorem joinCall_second_call_doubles_result :
    (joinCall Policy.channelPositions [] initialJoinState
        [⟨("ax"), DevKind.axis, [1, 2], [some 10, some 20]⟩,
         ⟨("ch"), DevKind.channel, [1, 2], [some 30, some 40]⟩]).1.length = 2
    ∧ (joinCall Policy.channelPositions []
        (joinCall Policy.channelPositions [] initialJoinState
          [⟨("ax"), DevKind.axis, [1, 2], [some 10, some 20]⟩,
           ⟨("ch"), DevKind.channel, [1, 2], [some 30, some 40]⟩]).2
        [⟨("ax"), DevKind.axis, [1, 2], [some 10, some 20]⟩,
         ⟨("ch"), DevKind.channel, [1, 2], [some 30, some 40]⟩]).1.length = 4 := by
  refine ⟨by decide, by decide⟩

/-- Claim C7 (counterexample): DeviceData and TimestampData materialise
through MeasureData._import_from_hdf5dataimporter alone, which sorts but
never removes duplicate positions, so a raw device recording
[(1, 5), (1, 6)] keeps both entries and its position index is not
strictly increasing after materialization. -/
theorem measureImport_keeps_duplicate_positions :
    measureImport [(1, 5), (1, 6)] = [(1, 5), (1, 6)]
    ∧ ¬ ([(1, 5), (1, 6)] : List (Int × Int)).Pairwise
        (fun a b => a.1 < b.1) := by
  refine ⟨by decide, by decide⟩

/-- Claim C9 (counterexample): requesting an unknown policy name from
JoinFactory.get_join raises KeyError from the globals() lookup, not an
InvalidArgument error with a no-such-policy message; and the name
JoinFactory, which is not a registered policy, is dispatched without any
error at all, returning a factory instance. -/
theorem getJoin_unknown_name_not_invalid_argument :
    getJoin ("Frobnicate") = GetJoinResult.raisesKeyError
    ∧ GetJoinResult.raisesKeyError ≠ GetJoinResult.raisesValueError ("no such policy")
    ∧ getJoin ("JoinFactory") = GetJoinResult.factoryInstance := by
  refine ⟨by decide, by decide, by decide⟩

/-- Claim C4 (counterexample): mapping is not order-independent. The
monitor [(-1, 10), (-1, 20), (2000, 30)] maps, through the timestamp
table with milliseconds [0, 1000, 3000] and positions [1, 2, 3], to two
entries, while the permuted monitor [(-1, 10), (2000, 30), (-1, 20)] maps
to three entries: the duplicate collapse only inspects consecutive pairs
and Mapper.map performs no internal sort. -/
theorem mapperMap_not_order_independent :
    mapperMap [0, 1000, 3000] [1, 2, 3] [(-1, 10), (-1, 20), (2000, 30)]
      = [(1, 20), (2, 30)]
    ∧ mapperMap [0, 1000, 3000] [1, 2, 3] [(-1, 10), (2000, 30), (-1, 20)]
      = [(1, 10), (2, 30), (1, 20)]
    ∧ ([(-1, 10), (-1, 20), (2000, 30)] : List (Int × Int)).Perm
        [(-1, 10), (2000, 30), (-1, 20)] := by
  refine ⟨by decide, by decide, by decide⟩


theorem mem_insortPair {a x : Int × Int} {l : List (Int × Int)} :
    a ∈ insortPair x l ↔ a = x ∨ a ∈ l := by
  induction l with
  | nil => simp [insortPair]
  | cons y rest ih =>
      simp only [insortPair]
      split
      · simp only [List.mem_cons]
      · simp only [List.mem_cons, ih]
        tauto

theorem pairwise_insortPair {x : Int × Int} {l : List (Int × Int)}
    (h : l.Pairwise (fun a b => a.1 ≤ b.1)) :
    (insortPair x l).Pairwise (fun a b => a.1 ≤ b.1) := by
  induction l with
  | nil => simp [insortPair]
  | cons y rest ih =>
      rw [List.pairwise_cons] at h
      obtain ⟨hy, hrest⟩ := h
      simp only [insortPair]
      split
      · rename_i hxy
        refine List.pairwise_cons.mpr ⟨?_, List.pairwise_cons.mpr ⟨hy, hrest⟩⟩
        intro b hb
        rcases List.mem_cons.mp hb with rfl | hb
        · exact hxy
        · exact le_trans hxy (hy b hb)
      · rename_i hxy
        push_neg at hxy
        refine List.pairwise_cons.mpr ⟨?_, ih hrest⟩
        intro b hb
        rcases mem_insortPair.mp hb with rfl | hb
        · exact le_of_lt hxy
        · exact hy b hb

theorem sortByPos_pairwise (l : List (Int × Int)) :
    (sortByPos l).Pairwise (fun a b => a.1 ≤ b.1) := by
  induction l with
  | nil => simp [sortByPos]
  | cons x rest ih => exact pairwise_insortPair ih

theorem mem_keepLastRun :
    ∀ (m : List (Int × Int)) (a : Int × Int), a ∈ keepLastRun m → a ∈ m
  | [], a, h => by simp only [keepLastRun] at h; exact absurd h (List.not_mem_nil a)
  | [x], a, h => by simp only [keepLastRun] at h; exact h
  | x :: y :: rest, a, h => by
      simp only [keepLastRun] at h
      split at h
      · exact List.mem_cons_of_mem _ (mem_keepLastRun (y :: rest) a h)
      · rcases List.mem_cons.mp h with rfl | h
        · exact List.mem_cons_self _ _
        · exact List.mem_cons_of_mem _ (mem_keepLastRun (y :: rest) a h)

/-- Claim C6 (code_bug evidence): the import pass keeps the last (Axis)
and first (Channel) entry of each run of the sorted array, but the source
sorts with np.argsort and its default kind quicksort, which numpy
documents as not stable, so the order of equal position counts — and with
it the retained value — is unspecified. The raw Axis recording
[(1, 10), (1, 20)] admits the two sorted rearrangements below; the Axis
dedup retains the value 20 (the last raw occurrence, as the claim and the
specification require) under the first and the value 10 under the
second, and the Channel dedup retains 10 or 20 likewise: the program
does not determine the claimed retention value. -/
theorem axis_channel_dedup_tie_order_dependent :
    sortedRearrangement [(1, 10), (1, 20)] [(1, 10), (1, 20)]
    ∧ sortedRearrangement [(1, 10), (1, 20)] [(1, 20), (1, 10)]
    ∧ keepLastRun [(1, 10), (1, 20)] = [(1, 20)]
    ∧ keepLastRun [(1, 20), (1, 10)] = [(1, 10)]
    ∧ keepFirstRun [(1, 10), (1, 20)] = [(1, 10)]
    ∧ keepFirstRun [(1, 20), (1, 10)] = [(1, 20)] := by
  refine ⟨⟨by decide, by decide⟩, ⟨by decide, by decide⟩, by decide,
    by decide, by decide, by decide⟩

theorem keepLastRun_pairwise_lt :
    ∀ (m : List (Int × Int)), m.Pairwise (fun a b => a.1 ≤ b.1) →
      (keepLastRun m).Pairwise (fun a b => a.1 < b.1)
  | [], _ => by simp [keepLastRun]
  | [x], _ => by simp [keepLastRun]
  | x :: y :: rest, hp => by
      have hyrest := (List.pairwise_cons.mp hp).2
      have hxall := (List.pairwise_cons.mp hp).1
      simp only [keepLastRun]
      split
      · exact keepLastRun_pairwise_lt (y :: rest) hyrest
      · rename_i hxy
        refine List.pairwise_cons.mpr
          ⟨?_, keepLastRun_pairwise_lt (y :: rest) hyrest⟩
        intro b hb
        have hbmem := mem_keepLastRun (y :: rest) b hb
        rcases List.mem_cons.mp hbmem with rfl | hb2
        · have h1 := hxall b (List.mem_cons_self b rest)
          omega
        · have h1 := hxall y (List.mem_cons_self y rest)
          have h2 := (List.pairwise_cons.mp hyrest).1 b hb2
          omega

theorem dropLeRun_strict :
    ∀ (prev : Int) (m : List (Int × Int)),
      m.Pairwise (fun a b => a.1 ≤ b.1) → (∀ b ∈ m, prev ≤ b.1) →
      (dropLeRun prev m).Pairwise (fun a b => a.1 < b.1)
      ∧ ∀ b ∈ dropLeRun prev m, prev < b.1
  | prev, [], _, _ => by simp [dropLeRun]
  | prev, y :: rest, hp, hall => by
      have hyrest := (List.pairwise_cons.mp hp).2
      have hyall := (List.pairwise_cons.mp hp).1
      have hprevy : prev ≤ y.1 := hall y (List.mem_cons_self y rest)
      simp only [dropLeRun]
      split
      · rename_i hle
        have h := dropLeRun_strict y.1 rest hyrest hyall
        exact ⟨h.1, fun b hb => by have := h.2 b hb; omega⟩
      · rename_i hgt
        push_neg at hgt
        have h := dropLeRun_strict y.1 rest hyrest hyall
        constructor
        · exact List.pairwise_cons.mpr ⟨fun b hb => h.2 b hb, h.1⟩
        · intro b hb
          rcases List.mem_cons.mp hb with rfl | hb2
          · omega
          · have := h.2 b hb2
            omega

/-- Claim C7 (amended): after materialization, the position index of Axis
and Channel data is strictly increasing, while DeviceData and
TimestampData — materialised by MeasureData alone — are only sorted
non-decreasingly; no deduplication pass exists for them. The value column
keeps the length of the position column structurally in this embedding,
because the source applies the same index selection to every attribute. -/
theorem import_monotonicity (raw : List (Int × Int)) :
    (axisImport raw).Pairwise (fun a b => a.1 < b.1)
    ∧ (channelImport raw).Pairwise (fun a b => a.1 < b.1)
    ∧ (measureImport raw).Pairwise (fun a b => a.1 ≤ b.1) := by
  refine ⟨keepLastRun_pairwise_lt _ (sortByPos_pairwise raw), ?_,
    sortByPos_pairwise raw⟩
  rw [channelImport]
  cases hs : sortByPos raw with
  | nil => simp [keepFirstRun]
  | cons x rest =>
      have hp : (x :: rest).Pairwise (fun a b => a.1 ≤ b.1) := by
        rw [← hs]
        exact sortByPos_pairwise raw
      have h := dropLeRun_strict x.1 rest (List.pairwise_cons.mp hp).2
        (List.pairwise_cons.mp hp).1
      simp only [keepFirstRun]
      exact List.pairwise_cons.mpr ⟨fun b hb => h.2 b hb, h.1⟩

theorem keepLastRun_eq_self_of_nodup :
    ∀ (m : List (Int × Int)), (m.map Prod.fst).Nodup → keepLastRun m = m
  | [], _ => rfl
  | [x], _ => rfl
  | x :: y :: rest, h => by
      have h1 : ¬ (x.1 = y.1) := by
        intro he
        rw [List.map_cons, List.nodup_cons] at h
        exact h.1 (by rw [List.map_cons, he]; exact List.mem_cons_self _ _)
      have h2 : ((y :: rest).map Prod.fst).Nodup := by
        rw [List.map_cons, List.nodup_cons] at h
        exact h.2
      simp only [keepLastRun, if_neg h1]
      rw [keepLastRun_eq_self_of_nodup (y :: rest) h2]

/-- Claim C4 (amended): mapping a Monitor to positions is
order-independent only for Monitor sequences with pairwise-distinct
timestamps, and then only up to output order: a permutation of such input
pairs yields a permutation of the output pairs, since the run collapse
leaves a duplicate-free sequence untouched. The mapper performs no
internal sort, so with duplicate timestamps a permutation can change even
the number of output entries. -/
theorem mapper_map_perm_of_distinct_timestamps (msL posL : List Int)
    (m1 m2 : List (Int × Int)) (hperm : m1.Perm m2)
    (hnd : (m1.map Prod.fst).Nodup) :
    (mapperMap msL posL m1).Perm (mapperMap msL posL m2) := by
  have hnd2 : (m2.map Prod.fst).Nodup := ((hperm.map Prod.fst).nodup_iff).mp hnd
  rw [mapperMap, mapperMap, keepLastRun_eq_self_of_nodup m1 hnd,
    keepLastRun_eq_self_of_nodup m2 hnd2]
  exact hperm.map _

/-- Witness for the amended claim C4 at a concrete permutation with
distinct timestamps. -/
theorem mapper_map_perm_of_distinct_timestamps_witness :
    (([(0, 10), (2000, 30)] : List (Int × Int)).Perm [(2000, 30), (0, 10)]
      ∧ (([(0, 10), (2000, 30)] : List (Int × Int)).map Prod.fst).Nodup)
    ∧ (mapperMap [0, 1000, 3000] [1, 2, 3] [(0, 10), (2000, 30)]).Perm
        (mapperMap [0, 1000, 3000] [1, 2, 3] [(2000, 30), (0, 10)]) :=
  ⟨⟨by decide, by decide⟩,
   mapper_map_perm_of_distinct_timestamps [0, 1000, 3000] [1, 2, 3]
     [(0, 10), (2000, 30)] [(2000, 30), (0, 10)] (by decide) (by decide)⟩

theorem filter_le_eq_nil (l : List Int) (c : Int) (h : ∀ b ∈ l, c < b) :
    l.filter (fun x => x ≤ c) = [] := by
  induction l with
  | nil => rfl
  | cons a rest ih =>
      rw [List.filter_cons, if_neg (by
        simp only [decide_eq_true_eq]
        have := h a (List.mem_cons_self a rest)
        omega)]
      exact ih (fun b hb => h b (List.mem_cons_of_mem a hb))

/-- Claim C8: the mapper collapses each run of consecutive identical
timestamps to its last entry, and a negative sentinel timestamp resolves
to the first known position; concretely, the monitor
[(-1, 10), (-1, 20), (2000, 30)] mapped through the timestamp table
(milliseconds [0, 1000, 3000], positions [1, 2, 3]) yields exactly two
entries: the value 20 of the second sentinel at the first position, and
the value 30 at position 2, the position whose recorded time is the
greatest time at most 2000. -/
theorem mapper_sentinel_and_run_collapse :
    mapperMap [0, 1000, 3000] [1, 2, 3] [(-1, 10), (-1, 20), (2000, 30)]
      = [(1, 20), (2, 30)]
    ∧ (∀ (t v1 v2 : Int) (rest : List (Int × Int)),
        keepLastRun ((t, v1) :: (t, v2) :: rest) = keepLastRun ((t, v2) :: rest))
    ∧ (∀ (msL posL : List Int) (t : Int), t < 0 → msL ≠ [] →
        msL.Pairwise (fun a b => a < b) →
        getPosition msL posL t = posL.getD 0 0) := by
  refine ⟨by decide, ?_, ?_⟩
  · intro t v1 v2 rest
    simp [keepLastRun]
  · intro msL posL t ht hne hmono
    cases msL with
    | nil => exact absurd rfl hne
    | cons h0 tail =>
        have hall : ∀ b ∈ tail, h0 < b := (List.pairwise_cons.mp hmono).1
        have hsr : searchRight (h0 :: tail) h0 = 1 := by
          rw [searchRight, List.filter_cons,
            if_pos (by simp only [decide_eq_true_eq]; omega),
            filter_le_eq_nil tail h0 hall]
          rfl
        simp only [getPosition, if_pos ht, List.getD_cons_zero, hsr]
        rfl

/-- Witness for the sentinel part of claim C8. -/
theorem mapper_sentinel_and_run_collapse_witness :
    ((-3 : Int) < 0 ∧ ([5] : List Int) ≠ []
      ∧ ([5] : List Int).Pairwise (fun a b => a < b))
    ∧ getPosition [5] [9] (-3) = ([9] : List Int).getD 0 0 :=
  ⟨⟨by decide, by decide, by decide⟩,
   mapper_sentinel_and_run_collapse.2.2 [5] [9] (-3) (by decide) (by decide)
     (by decide)⟩

/-- Claim C10: for a strictly increasing, non-empty timestamp table, a
non-negative query time strictly below the first recorded millisecond
yields idx = 0 from np.digitize, and position_counts[idx - 1] then picks,
through Python index -1, the position count of the last entry of the
table. -/
theorem get_position_small_time_maps_to_last (msL posL : List Int) (t : Int)
    (hmono : msL.Pairwise (fun a b => a < b)) (hne : msL ≠ [])
    (ht0 : 0 ≤ t) (htlt : t < msL.getD 0 0) :
    getPosition msL posL t = posL.getD (posL.length - 1) 0 := by
  cases msL with
  | nil => exact absurd rfl hne
  | cons h0 tail =>
      have hall : ∀ b ∈ tail, h0 < b := (List.pairwise_cons.mp hmono).1
      have hh : ((h0 :: tail) : List Int).getD 0 0 = h0 := rfl
      rw [hh] at htlt
      have hnneg : ¬ (t < 0) := by omega
      have hsr : searchRight (h0 :: tail) t = 0 := by
        rw [searchRight, List.filter_cons,
          if_neg (by simp only [decide_eq_true_eq]; omega),
          filter_le_eq_nil tail t (fun b hb => by
            have := hall b hb
            omega)]
        rfl
      simp only [getPosition, if_neg hnneg, hsr]
      simp

/-- Witness for claim C10 at a concrete table and query time. -/
theorem get_position_small_time_maps_to_last_witness :
    (([1000, 2000] : List Int).Pairwise (fun a b => a < b)
      ∧ ([1000, 2000] : List Int) ≠ []
      ∧ (0 : Int) ≤ 7 ∧ (7 : Int) < ([1000, 2000] : List Int).getD 0 0)
    ∧ getPosition [1000, 2000] [5, 6] 7 =
        ([5, 6] : List Int).getD (([5, 6] : List Int).length - 1) 0 :=
  ⟨⟨by decide, by decide, by decide, by decide⟩,
   get_position_small_time_maps_to_last [1000, 2000] [5, 6] 7 (by decide)
     (by decide) (by decide) (by decide)⟩

/-- Claim C9 (amended): a mode name absent from the module globals makes
get_join raise KeyError, and no mode name ever produces a ValueError (the
InvalidArgument of the specification); names present as module globals
are dispatched without any policy check, as the counterexample for the
name JoinFactory shows. -/
theorem get_join_lookup_behavior :
    (∀ (mode : String), joiningGlobals.lookup mode = none →
      getJoin mode = GetJoinResult.raisesKeyError)
    ∧ (∀ (mode msg : String),
      getJoin mode ≠ GetJoinResult.raisesValueError msg) := by
  constructor
  · intro mode h
    simp [getJoin, h]
  · intro mode msg
    simp only [getJoin]
    cases h : joiningGlobals.lookup mode with
    | none => simp [h]
    | some g =>
        simp only [h]
        cases g <;> simp [callWithEvefile]

/-- Witness for the amended claim C9 at a concrete unknown mode name. -/
theorem get_join_lookup_behavior_witness :
    joiningGlobals.lookup ("NoSuchJoin") = none
    ∧ getJoin ("NoSuchJoin") = GetJoinResult.raisesKeyError :=
  ⟨by decide, get_join_lookup_behavior.1 ("NoSuchJoin") (by decide)⟩

theorem getD_map_some (l : List Int) (i : Nat) (h : i < l.length) :
    (l.map some).getD i none = some (l.getD i 0) := by
  induction l generalizing i with
  | nil => simp at h
  | cons a rest ih =>
      cases i with
      | zero => rfl
      | succ k =>
          simp only [List.map_cons, List.getD_cons_succ]
          exact ih k (by simpa using h)

theorem zip_filter_le_nil (pc vals : List Int) (p : Int)
    (h : ∀ b ∈ pc, p < b) :
    (pc.zip vals).filter (fun q => q.1 ≤ p) = [] := by
  induction pc generalizing vals with
  | nil => rfl
  | cons a rest ih =>
      cases vals with
      | nil => rfl
      | cons v vr =>
          rw [List.zip_cons_cons, List.filter_cons, if_neg (by
            simp only [decide_eq_true_eq]
            have := h a (List.mem_cons_self a rest)
            omega)]
          exact ih vr (fun b hb => h b (List.mem_cons_of_mem a hb))

theorem searchRight_all_gt (l : List Int) (p : Int)
    (h : searchRight l p = 0) : ∀ b ∈ l, p < b := by
  intro b hb
  by_contra hle
  push_neg at hle
  have hmem : b ∈ l.filter (fun x => x ≤ p) :=
    List.mem_filter.mpr ⟨hb, by simpa using hle⟩
  rw [searchRight] at h
  rw [List.length_eq_zero.mp h] at hmem
  exact absurd hmem (List.not_mem_nil b)

theorem searchRight_le_length (l : List Int) (p : Int) :
    searchRight l p ≤ l.length :=
  List.length_filter_le _ l

theorem asOf_pointwise :
    ∀ (pc vals : List Int), pc.Pairwise (fun a b => a ≤ b) →
      vals.length = pc.length → ∀ (p : Int),
      (if searchRight pc p = 0 then none
       else (vals.map some).getD (searchRight pc p - 1) none) =
      (((pc.zip vals).filter (fun q => q.1 ≤ p)).getLast?).map Prod.snd
  | [], vals, _, hlen, p => by
      simp [searchRight]
  | q :: pcr, vals, hp, hlen, p => by
      cases vals with
      | nil => simp at hlen
      | cons v vr =>
          have hrest : pcr.Pairwise (fun a b => a ≤ b) :=
            (List.pairwise_cons.mp hp).2
          have hall : ∀ b ∈ pcr, q ≤ b := (List.pairwise_cons.mp hp).1
          have hlen2 : vr.length = pcr.length := by simpa using hlen
          by_cases hq : q ≤ p
          · have hsr : searchRight (q :: pcr) p = searchRight pcr p + 1 := by
              rw [searchRight, List.filter_cons,
                if_pos (by simpa using hq)]
              rw [List.length_cons, searchRight]
            rw [hsr, if_neg (by omega : ¬ (searchRight pcr p + 1 = 0)),
              List.zip_cons_cons, List.filter_cons,
              if_pos (by simpa using hq)]
            by_cases hn : searchRight pcr p = 0
            · have hnil : (pcr.zip vr).filter (fun q2 => q2.1 ≤ p) = [] :=
                zip_filter_le_nil pcr vr p (searchRight_all_gt pcr p hn)
              rw [hn, hnil]
              rfl
            · have hIH := asOf_pointwise pcr vr hrest hlen2 p
              rw [if_neg hn] at hIH
              have hlt : searchRight pcr p - 1 < vr.length := by
                have h1 := searchRight_le_length pcr p
                omega
              have hsome := getD_map_some vr (searchRight pcr p - 1) hlt
              have hcons :
                  ((v :: vr).map some).getD (searchRight pcr p + 1 - 1) none =
                    (vr.map some).getD (searchRight pcr p - 1) none := by
                have h1 : searchRight pcr p + 1 - 1 =
                    (searchRight pcr p - 1) + 1 := by omega
                rw [h1, List.map_cons, List.getD_cons_succ]
              rw [hcons, hIH]
              cases hL : (pcr.zip vr).filter (fun q2 => q2.1 ≤ p) with
              | nil =>
                  exfalso
                  rw [hL] at hIH
                  rw [hsome] at hIH
                  simp at hIH
              | cons a t =>
                  rw [List.getLast?_cons_cons]
          · have hgt : ∀ b ∈ q :: pcr, p < b := by
              intro b hb
              rcases List.mem_cons.mp hb with rfl | hb2
              · omega
              · have := hall b hb2
                omega
            have hsr : searchRight (q :: pcr) p = 0 := by
              rw [searchRight, filter_le_eq_nil (q :: pcr) p hgt]
              rfl
            rw [hsr, zip_filter_le_nil (q :: pcr) (v :: vr) p hgt]
            rfl

/-- Claim C3: AxisData.join with fill and no snapshot performs, for every
position p of the common index, an as-of lookup: the output slot carries
the value recorded at the greatest recorded position at most p, and is
masked when no recorded position is at most p, instead of raising an
error. -/
theorem axis_join_fill_carry_forward (pc vals positions : List Int)
    (hs : pc.Pairwise (fun a b => a ≤ b)) (hlen : vals.length = pc.length)
    (_hne : pc ≠ []) :
    (axisJoinFill pc (vals.map some) positions).2 =
      positions.map (fun p =>
        (((pc.zip vals).filter (fun q => q.1 ≤ p)).getLast?).map Prod.snd) := by
  simp only [axisJoinFill]
  refine List.map_congr_left ?_
  intro p _
  exact asOf_pointwise pc vals hs hlen p

/-- Witness for claim C3 at the concrete inputs of the specification
examples: index [0, 2, 4] with values [7, 8, 9] aligned to
[0, 1, 2, 3, 4]. -/
theorem axis_join_fill_carry_forward_witness :
    (([0, 2, 4] : List Int).Pairwise (fun a b => a ≤ b)
      ∧ ([7, 8, 9] : List Int).length = ([0, 2, 4] : List Int).length
      ∧ ([0, 2, 4] : List Int) ≠ [])
    ∧ (axisJoinFill [0, 2, 4] ([7, 8, 9].map some) [0, 1, 2, 3, 4]).2 =
        ([0, 1, 2, 3, 4] : List Int).map (fun p =>
          ((([0, 2, 4].zip [7, 8, 9]).filter
            (fun q => q.1 ≤ p)).getLast?).map Prod.snd) :=
  ⟨⟨by decide, by decide, by decide⟩,
   axis_join_fill_carry_forward [0, 2, 4] [7, 8, 9] [0, 1, 2, 3, 4]
     (by decide) (by decide) (by decide)⟩
